import Mathlib

/-!
Verification of the jsonpath-cty engine (Go) against its specification.

The repository evaluates JSONPath expressions over `cty.Value` trees.
We shallowly embed the data model (`cty.Value`, `cty.Path`), the working-set
evaluator of `JSONPath.Evaluate` (src/jsonpath.go, first iteration), the
CPS evaluator of `Prepare`/`parseObjAccess`/`prepareWildcard`
(src/jsonpath.go, second iteration), the kubernetes-derived `evalArray`
(third iteration), the `prepareSlice`/`negmax` index arithmetic, and the
filter command of src/obj.go, and prove or refute the specified properties.
-/

namespace JsonPathCty

/-- A `cty.Value` used as an element-iterator key or bracket index:
either a string (attribute / map key) or a number (list / tuple index).
In the Go source these are `cty.StringVal` / `cty.NumberIntVal` values. -/
inductive Key where
  | str (s : String)
  | num (n : Int)
deriving DecidableEq, Repr

/-- Shallow embedding of `cty.Value` (the subset the engine manipulates):
null, booleans, arbitrary-precision numbers (modelled as `ℚ`), strings,
lists, tuples, maps and objects.  Keyed containers carry their fields as
association lists; `cty`'s element iterator yields map/object entries in
sorted key order, so concrete examples below list fields sorted. -/
inductive Value where
  | vnull
  | vbool (b : Bool)
  | vnum (n : ℚ)
  | vstr (s : String)
  | vlist (xs : List Value)
  | vtuple (xs : List Value)
  | vmap (fields : List (String × Value))
  | vobj (fields : List (String × Value))
deriving Repr

mutual
/-- Structural equality of values (recursive, order-sensitive for
indexed containers, field-list order for keyed containers). -/
def beqValue : Value → Value → Bool
  | .vnull, .vnull => true
  | .vbool a, .vbool b => a == b
  | .vnum a, .vnum b => a == b
  | .vstr a, .vstr b => a == b
  | .vlist a, .vlist b => beqVList a b
  | .vtuple a, .vtuple b => beqVList a b
  | .vmap a, .vmap b => beqVFields a b
  | .vobj a, .vobj b => beqVFields a b
  | _, _ => false

def beqVList : List Value → List Value → Bool
  | [], [] => true
  | a :: as, b :: bs => beqValue a b && beqVList as bs
  | _, _ => false

def beqVFields : List (String × Value) → List (String × Value) → Bool
  | [], [] => true
  | (k, a) :: as, (l, b) :: bs => k == l && beqValue a b && beqVFields as bs
  | _, _ => false
end

/-- `beqValue` decides structural equality (proof used by the
`DecidableEq` instance below, hence stated as a definition). -/
def beqValue_correct :
    ∀ n, ∀ a b : Value, sizeOf a ≤ n → (beqValue a b = true ↔ a = b) := by
  intro n
  induction n with
  | zero => intro a b h; cases a <;> simp_all
  | succ n ih =>
    have listIff : ∀ as bs : List Value, (∀ a ∈ as, sizeOf a ≤ n) →
        (beqVList as bs = true ↔ as = bs) := by
      intro as
      induction as with
      | nil => intro bs _; cases bs <;> simp [beqVList]
      | cons a as aih =>
        intro bs hsz
        cases bs with
        | nil => simp [beqVList]
        | cons b bs =>
          simp only [beqVList, Bool.and_eq_true, List.cons.injEq]
          rw [ih a b (hsz a (by simp)), aih bs (fun x hx => hsz x (by simp [hx]))]
    have fieldsIff : ∀ fs gs : List (String × Value), (∀ kv ∈ fs, sizeOf kv.2 ≤ n) →
        (beqVFields fs gs = true ↔ fs = gs) := by
      intro fs
      induction fs with
      | nil => intro gs _; cases gs <;> simp [beqVFields]
      | cons kv fs fih =>
        intro gs hsz
        obtain ⟨k, a⟩ := kv
        cases gs with
        | nil => simp [beqVFields]
        | cons lb gs =>
          obtain ⟨l, b⟩ := lb
          simp only [beqVFields, Bool.and_eq_true, List.cons.injEq, Prod.mk.injEq,
            beq_iff_eq]
          rw [ih a b (hsz (k, a) (by simp)), and_assoc]
          constructor
          · rintro ⟨h1, h2, h3⟩
            exact ⟨⟨h1, h2⟩, (fih gs (fun x hx => hsz x (by simp [hx]))).mp h3⟩
          · rintro ⟨⟨h1, h2⟩, h3⟩
            exact ⟨h1, h2, (fih gs (fun x hx => hsz x (by simp [hx]))).mpr h3⟩
    intro a b h
    cases a <;> cases b <;> try (simp [beqValue]; done)
    case vlist.vlist xs ys =>
      simp only [Value.vlist.sizeOf_spec] at h
      simp only [beqValue, Value.vlist.injEq]
      exact listIff xs ys fun x hx => by
        have := List.sizeOf_lt_of_mem hx; omega
    case vtuple.vtuple xs ys =>
      simp only [Value.vtuple.sizeOf_spec] at h
      simp only [beqValue, Value.vtuple.injEq]
      exact listIff xs ys fun x hx => by
        have := List.sizeOf_lt_of_mem hx; omega
    case vmap.vmap fs gs =>
      simp only [Value.vmap.sizeOf_spec] at h
      simp only [beqValue, Value.vmap.injEq]
      exact fieldsIff fs gs fun kv hkv => by
        have h1 := List.sizeOf_lt_of_mem hkv
        have h2 : sizeOf kv.2 < sizeOf kv := by cases kv; simp
        omega
    case vobj.vobj fs gs =>
      simp only [Value.vobj.sizeOf_spec] at h
      simp only [beqValue, Value.vobj.injEq]
      exact fieldsIff fs gs fun kv hkv => by
        have h1 := List.sizeOf_lt_of_mem hkv
        have h2 : sizeOf kv.2 < sizeOf kv := by cases kv; simp
        omega

instance : DecidableEq Value :=
  fun a b => decidable_of_iff _ (beqValue_correct (sizeOf a) a b le_rfl)

/-- One `cty.Path` step: `cty.GetAttrStep` or `cty.IndexStep`. -/
inductive PStep where
  | getAttr (name : String)
  | index (key : Key)
deriving DecidableEq, Repr

/-- A `cty.Path`: an ordered sequence of attribute/index steps. -/
abbrev CtyPath := List PStep

/-- First binding of `name` in an association list (attribute lookup). -/
def lookupField (fields : List (String × Value)) (name : String) : Option Value :=
  match fields with
  | [] => none
  | (k, v) :: rest => if k = name then some v else lookupField rest name

/-- `cty.Path.Apply` for a single step: `GetAttrStep` applies to objects,
`IndexStep` applies to maps (string keys) and lists/tuples (numeric keys,
in bounds); every other combination is an error (`none`). -/
def applyPStep (v : Value) (s : PStep) : Option Value :=
  match s, v with
  | .getAttr n, .vobj fields => lookupField fields n
  | .index (.str k), .vmap fields => lookupField fields k
  | .index (.num i), .vlist xs => if 0 ≤ i then xs.get? i.toNat else none
  | .index (.num i), .vtuple xs => if 0 ≤ i then xs.get? i.toNat else none
  | _, _ => none

/-- `cty.Path.Apply`: successive attribute/index lookups. -/
def applyPath : Value → CtyPath → Option Value
  | v, [] => some v
  | v, s :: rest =>
    match applyPStep v s with
    | some w => applyPath w rest
    | none => none

/-- List elements paired with their ascending indices from `i`. -/
def idxChildren : List Value → Nat → List (Key × Value)
  | [], _ => []
  | x :: rest, i => (Key.num i, x) :: idxChildren rest (i + 1)

/-- The element iterator of a value, as `(key, element)` pairs:
ascending indices for lists/tuples, field order (sorted keys in `cty`)
for maps/objects; primitives yield nothing. -/
def childrenOf : Value → List (Key × Value)
  | .vlist xs => idxChildren xs 0
  | .vtuple xs => idxChildren xs 0
  | .vmap fs => fs.map fun kv => (Key.str kv.1, kv.2)
  | .vobj fs => fs.map fun kv => (Key.str kv.1, kv.2)
  | _ => []

/-- List elements paired with their index steps from `i`. -/
def idxSteps : List Value → Nat → List (PStep × Value)
  | [], _ => []
  | x :: rest, i => (PStep.index (Key.num i), x) :: idxSteps rest (i + 1)

/-- The immediate children of a value together with the `cty.Path` step
that reaches each child (the step `cty.Walk` appends while descending). -/
def childSteps : Value → List (PStep × Value)
  | .vlist xs => idxSteps xs 0
  | .vtuple xs => idxSteps xs 0
  | .vmap fs => fs.map fun kv => (PStep.index (Key.str kv.1), kv.2)
  | .vobj fs => fs.map fun kv => (PStep.getAttr kv.1, kv.2)
  | _ => []

mutual
/-- `cty.Walk` as used by the recursive-descent branch of
`JSONPath.Evaluate`: visit `(v, p)` itself, then every descendant in
depth-first pre-order, extending the path with the reaching step. -/
def walkPre : Value → CtyPath → List (Value × CtyPath)
  | .vlist xs, p => (.vlist xs, p) :: walkIdx xs 0 p
  | .vtuple xs, p => (.vtuple xs, p) :: walkIdx xs 0 p
  | .vmap fs, p => (.vmap fs, p) :: walkFieldsIdx fs p
  | .vobj fs, p => (.vobj fs, p) :: walkFieldsAttr fs p
  | v, p => [(v, p)]

def walkIdx : List Value → Nat → CtyPath → List (Value × CtyPath)
  | [], _, _ => []
  | x :: rest, i, p =>
    walkPre x (p ++ [PStep.index (Key.num i)]) ++ walkIdx rest (i + 1) p

def walkFieldsIdx : List (String × Value) → CtyPath → List (Value × CtyPath)
  | [], _ => []
  | (k, x) :: rest, p =>
    walkPre x (p ++ [PStep.index (Key.str k)]) ++ walkFieldsIdx rest p

def walkFieldsAttr : List (String × Value) → CtyPath → List (Value × CtyPath)
  | [], _ => []
  | (k, x) :: rest, p =>
    walkPre x (p ++ [PStep.getAttr k]) ++ walkFieldsAttr rest p
end

/-- Keys of an association list are pairwise distinct. -/
def keysNodup : List (String × Value) → Bool
  | [] => true
  | (k, _) :: rest => rest.all (fun kv => !(kv.1 == k)) && keysNodup rest

mutual
/-- Well-formedness mirroring `cty`'s own invariant: keyed containers
cannot carry two fields with the same name. -/
def wfVal : Value → Bool
  | .vlist xs => wfList xs
  | .vtuple xs => wfList xs
  | .vmap fs => keysNodup fs && wfFields fs
  | .vobj fs => keysNodup fs && wfFields fs
  | _ => true

def wfList : List Value → Bool
  | [] => true
  | x :: r => wfVal x && wfList r

def wfFields : List (String × Value) → Bool
  | [] => true
  | (_, x) :: r => wfVal x && wfFields r
end

/-! ## Slice index arithmetic (`negmax`, `prepareSlice`, src/jsonpath.go) -/

/-- `negmax(n, max)`: resolve a possibly negative slice bound against the
container length and clamp it into `[0, max]`. -/
def negmax (n mx : Int) : Int :=
  if n < 0 then
    let n2 := mx + n
    if n2 < 0 then 0 else n2
  else if n > mx then mx
  else n

/-- The ascending emission loop of `prepareSlice`
(`for i := idxL; i < idxR; i += increment`).  `fuel` bounds the number of
iterations; `none` means the loop is still running after `fuel` steps, so
`(∀ fuel, _ = none)` is nontermination. -/
def sliceLoopUp (fuel : Nat) (i idxR inc : Int) : Option (List Int) :=
  match fuel with
  | 0 => if i < idxR then none else some []
  | fuel + 1 =>
    if i < idxR then Option.map (fun l => i :: l) (sliceLoopUp fuel (i + inc) idxR inc)
    else some []

/-- The descending emission loop of `prepareSlice`
(`for i := idxR - 1; i >= idxL; i += increment`, `increment < 0`). -/
def sliceLoopDown (fuel : Nat) (i idxL inc : Int) : Option (List Int) :=
  match fuel with
  | 0 => if idxL ≤ i then none else some []
  | fuel + 1 =>
    if idxL ≤ i then Option.map (fun l => i :: l) (sliceLoopDown fuel (i + inc) idxL inc)
    else some []

/-- Bound resolution of `prepareSlice`: `idxL = negmax(indexes[0], len)`;
`idxR = len` when `indexes[1] == 0` (the parser encodes an omitted end as 0),
otherwise `negmax(indexes[1], len)`. -/
def sliceResolveL (indexes : List Int) (len : Nat) : Int :=
  negmax (indexes.getD 0 0) len

def sliceResolveR (indexes : List Int) (len : Nat) : Int :=
  if indexes.getD 1 0 = 0 then (len : Int) else negmax (indexes.getD 1 0) len

/-- The increment: third slice part when present, else 1. -/
def sliceInc (indexes : List Int) : Int :=
  if indexes.length = 3 then indexes.getD 2 1 else 1

/-- The index sequence emitted by `prepareSlice` on a container of length
`len` (the `CanIterateElements` branch). -/
def sliceIndices (fuel : Nat) (indexes : List Int) (len : Nat) : Option (List Int) :=
  let idxL := sliceResolveL indexes len
  let idxR := sliceResolveR indexes len
  let inc := sliceInc indexes
  if inc < 0 then sliceLoopDown fuel (idxR - 1) idxL inc
  else sliceLoopUp fuel idxL idxR inc

/-! ## The first-iteration `JSONPath.Evaluate` pipeline (src/jsonpath.go) -/

/-- Outcome of running a piece of Go code: a normal result, a runtime
panic (e.g. out-of-range slice index, iterating a primitive), or—when the
fuel bound is reached inside a loop that would keep running—`diverge`. -/
inductive GoOutcome (α : Type) where
  | ok (a : α)
  | panic (msg : String)
  | diverge
deriving Repr

instance {α : Type} [DecidableEq α] : DecidableEq (GoOutcome α)
  | .ok a, .ok b =>
    if h : a = b then isTrue (by rw [h])
    else isFalse (fun hc => by cases hc; exact h rfl)
  | .panic m, .panic m' =>
    if h : m = m' then isTrue (by rw [h])
    else isFalse (fun hc => by cases hc; exact h rfl)
  | .diverge, .diverge => isTrue rfl
  | .ok _, .panic _ => isFalse (fun h => by cases h)
  | .ok _, .diverge => isFalse (fun h => by cases h)
  | .panic _, .ok _ => isFalse (fun h => by cases h)
  | .panic _, .diverge => isFalse (fun h => by cases h)
  | .diverge, .ok _ => isFalse (fun h => by cases h)
  | .diverge, .panic _ => isFalse (fun h => by cases h)

def GoOutcome.bind {α β : Type} : GoOutcome α → (α → GoOutcome β) → GoOutcome β
  | .ok a, f => f a
  | .panic m, _ => .panic m
  | .diverge, _ => .diverge

instance : Monad GoOutcome where
  pure := GoOutcome.ok
  bind := GoOutcome.bind

/-- A compiled operator of the first-iteration pipeline: running the
parser's action list on empty inputs yields one `PathStep` closure per
path operator, with `nil` (here `deep`) marking a recursive descent. -/
inductive Item where
  | attr (name : String)
  | wildcard
  | index (k : Key)
  | slice (indexes : List Int)
  | union (keys : List Key)
  | deep
deriving DecidableEq, Repr

/-- `ValueContainer`: the working set of values, their provenance paths,
and the flatten flag. -/
structure ValueContainer where
  values : List Value
  paths : List CtyPath
  flatten : Bool
deriving DecidableEq, Repr

/-- `cty.Value.CanIterateElements`. -/
def canIterate : Value → Bool
  | .vlist _ | .vtuple _ | .vmap _ | .vobj _ => true
  | _ => false

/-- `cty.Value.LengthInt`; panics (`none`) on non-collections. -/
def lengthInt : Value → Option Nat
  | .vlist xs => some xs.length
  | .vtuple xs => some xs.length
  | .vmap fs => some fs.length
  | .vobj fs => some fs.length
  | _ => none

def keyIsNum : Key → Bool
  | .num _ => true
  | .str _ => false

/-- `isList` test of `Evaluate`: tuple or list type. -/
def Value.isIndexed : Value → Bool
  | .vlist _ | .vtuple _ => true
  | _ => false

/-- `makeStep`: objects take string attribute steps, everything else an
index step. -/
def makeStep (value : Value) (index : Key) : Except String PStep :=
  match value with
  | .vobj _ =>
    match index with
    | .str s => .ok (.getAttr s)
    | .num _ => .error "object key must be a string"
  | _ => .ok (.index index)

/-- `makeStepVal`: build the step and apply it to the value. -/
def makeStepVal (value : Value) (index : Key) : Except String Value :=
  match makeStep value index with
  | .error e => .error e
  | .ok s =>
    match applyPStep value s with
    | some w => .ok w
    | none => .error "step does not apply"

/-- The path fragment Go appends: `makeStep`'s result, or the nil path
when `makeStep` errors (its error is discarded at the append sites). -/
def makeStepList (value : Value) (index : Key) : List PStep :=
  match makeStep value index with
  | .ok st => [st]
  | .error _ => []

/-- The per-operator index computation (the `PathStep` closures built by
`parseObjAccess`, `prepareWildcard`, `prepareIndex`, `prepareSlice` and
`prepareUnion`), returning the selected keys and the flatten flag. -/
def itemIndices (fuel : Nat) (item : Item) (v : Value) : GoOutcome (List Key × Bool) :=
  match item with
  | .attr n => .ok ([Key.str n], true)
  | .index k => .ok ([k], true)
  | .wildcard =>
    if canIterate v then .ok ((childrenOf v).map Prod.fst, false)
    else .panic "ElementIterator on non-iterable value"
  | .slice idxs =>
    match lengthInt v with
    | none => .panic "LengthInt on non-collection value"
    | some len =>
      if canIterate v then
        match sliceIndices fuel idxs len with
        | none => .diverge
        | some l => .ok (l.map Key.num, false)
      else .ok ([], false)
  | .union keys => .ok (keys, false)
  | .deep => .ok ([], false)

/-- The inner loop of `Evaluate` over one list element in the
`isList && !number-key` branch. -/
def childLoop (inputVal : Value) (basePaths : List CtyPath) (i : Nat) (key : Key) :
    List Value → Nat → List Value → List CtyPath →
    GoOutcome (List Value × List CtyPath)
  | [], _, res, paths => .ok (res, paths)
  | child :: cs, listI, res, paths =>
    match makeStepVal child key with
    | .ok w =>
      match basePaths.get? i with
      | some bp =>
        childLoop inputVal basePaths i key cs (listI + 1) (res ++ [w])
          (paths ++ [bp ++ [PStep.index (Key.num listI)] ++ makeStepList inputVal key])
      | none => .panic "index out of range"
    | .error _ => childLoop inputVal basePaths i key cs (listI + 1) res paths

/-- The loop of `Evaluate` over the selected keys of one step.  `i` is the
index of the *operator* in the compiled list: the code reads `V.Paths[i]`
(not the candidate's own path) as the base path of every emission. -/
def keyLoop (inputVal : Value) (basePaths : List CtyPath) (i : Nat) :
    List Key → List Value → List CtyPath → Bool →
    GoOutcome (List Value × List CtyPath × Bool)
  | [], res, paths, flat => .ok (res, paths, flat)
  | key :: ks, res, paths, flat =>
    match inputVal with
    | .vobj fs =>
      match makeStepVal (Value.vobj fs) key with
      | .ok w =>
        match basePaths.get? i with
        | some bp =>
          keyLoop (Value.vobj fs) basePaths i ks (res ++ [w])
            (paths ++ [bp ++ makeStepList (Value.vobj fs) key]) flat
        | none => .panic "index out of range"
      | .error _ => keyLoop (Value.vobj fs) basePaths i ks res paths flat
    | _ =>
      if (Value.isIndexed inputVal) ∧ ¬(keyIsNum key = true) then
        match inputVal with
        | .vlist xs =>
          (childLoop inputVal basePaths i key xs 0 res paths).bind fun rp =>
            keyLoop inputVal basePaths i ks rp.1 rp.2 false
        | .vtuple xs =>
          (childLoop inputVal basePaths i key xs 0 res paths).bind fun rp =>
            keyLoop inputVal basePaths i ks rp.1 rp.2 false
        | _ => .panic "unreachable"
      else
        match makeStepVal inputVal key with
        | .ok w =>
          match basePaths.get? i with
          | some bp =>
            keyLoop inputVal basePaths i ks (res ++ [w])
              (paths ++ [bp ++ makeStepList inputVal key]) flat
          | none => .panic "index out of range"
        | .error _ => keyLoop inputVal basePaths i ks res paths flat

/-- The recursive-descent branch: for each `(val, vPath)` of the working
set, `cty.Walk` enumerates `(val, vPath)` and all its descendants. -/
def walkAll : List Value → List CtyPath → GoOutcome (List (Value × CtyPath))
  | [], _ => .ok []
  | v :: vs, ps =>
    match ps with
    | p :: ps' => (walkAll vs ps').bind fun rest => .ok (walkPre v p ++ rest)
    | [] => .panic "index out of range"

/-- One step of the `Evaluate` loop body (the non-`nil` branch). -/
def evalStep (fuel : Nat) (i : Nat) (item : Item) (V : ValueContainer) :
    GoOutcome ValueContainer :=
  let inputVal := if V.flatten ∧ V.values.length = 1
    then V.values.headD Value.vnull else Value.vtuple V.values
  (itemIndices fuel item inputVal).bind fun indf =>
    (keyLoop inputVal V.paths i indf.1 [] [] indf.2).bind fun rpf =>
      .ok ⟨rpf.1, rpf.2.1, rpf.2.2⟩

/-- The `Evaluate` loop over the compiled operators, carrying the
operator index `i`. -/
def evalLoop (fuel : Nat) : Nat → List Item → ValueContainer → GoOutcome ValueContainer
  | _, [], V => .ok V
  | i, Item.deep :: rest, V =>
    (walkAll V.values V.paths).bind fun pairs =>
      evalLoop fuel (i + 1) rest ⟨pairs.map Prod.fst, pairs.map Prod.snd, false⟩
  | i, item :: rest, V =>
    (evalStep fuel i item V).bind fun V2 => evalLoop fuel (i + 1) rest V2

/-- `JSONPath.Evaluate` after parsing: the working set starts as the root
value with the empty path and `flatten = true`. -/
def evaluateItems (fuel : Nat) (items : List Item) (value : Value) :
    GoOutcome ValueContainer :=
  evalLoop fuel 0 items ⟨[value], [[]], true⟩

/-! ## The scanner and path parser (src/jsonpath.go, `text/scanner` based)

The Go code drives `text/scanner` in three mode configurations: the
default `GoTokens` right after `Init`, `ScanIdents` inside `.` segments,
and `ScanIdents|ScanStrings|ScanInts` inside brackets.  We model the mode
bits the engine toggles; inputs contain only ASCII. -/

structure ScanMode where
  idents : Bool
  ints : Bool
  floats : Bool
  strings : Bool
deriving DecidableEq, Repr

def goTokensMode : ScanMode := ⟨true, true, true, true⟩
def identsMode : ScanMode := ⟨true, false, false, false⟩
def arrayMode : ScanMode := ⟨true, true, false, true⟩

/-- A token as returned by `scanner.Scan` plus `TokenText`. -/
inductive Tok where
  | ch (c : Char)
  | ident (s : String)
  | int (s : String)
  | float (s : String)
  | str (s : String)
  | eof
deriving DecidableEq, Repr

def isIdentStart (c : Char) : Bool := c.isAlpha || c = '_'
def isIdentCont (c : Char) : Bool := c.isAlphanum || c = '_'

def headIsDigit : List Char → Bool
  | d :: _ => d.isDigit
  | [] => false

def takeWhileCh (p : Char → Bool) : List Char → List Char × List Char
  | [] => ([], [])
  | c :: cs =>
    if p c then
      let ab := takeWhileCh p cs
      (c :: ab.1, ab.2)
    else ([], c :: cs)

/-- Scan a double-quoted string body (after the opening quote); on EOF the
scanner reports an error and returns the text consumed so far. -/
def scanStringBody (acc : List Char) : List Char → List Char × List Char
  | [] => (acc, [])
  | '"' :: cs => (acc ++ ['"'], cs)
  | '\\' :: c :: cs => scanStringBody (acc ++ ['\\', c]) cs
  | c :: cs => scanStringBody (acc ++ [c]) cs

/-- `scanner.Scan`: skip whitespace, then scan one token according to the
enabled mode bits; characters that start no enabled token class are
returned as themselves. -/
def scanTok (mode : ScanMode) : List Char → Tok × List Char
  | [] => (.eof, [])
  | c :: cs =>
    if c = ' ' ∨ c = '\t' ∨ c = '\n' ∨ c = '\r' then scanTok mode cs
    else if mode.idents ∧ isIdentStart c then
      let ab := takeWhileCh isIdentCont cs
      (.ident (String.mk (c :: ab.1)), ab.2)
    else if (mode.ints ∨ mode.floats) ∧ c.isDigit then
      let ab := takeWhileCh Char.isDigit cs
      match ab.2 with
      | '.' :: d :: bs =>
        if mode.floats ∧ d.isDigit then
          let fb := takeWhileCh Char.isDigit bs
          (.float (String.mk (c :: ab.1 ++ '.' :: d :: fb.1)), fb.2)
        else (.int (String.mk (c :: ab.1)), ab.2)
      | _ => (.int (String.mk (c :: ab.1)), ab.2)
    else if mode.floats ∧ c = '.' ∧ headIsDigit cs then
      let ab := takeWhileCh Char.isDigit cs
      (.float (String.mk (c :: ab.1)), ab.2)
    else if mode.strings ∧ c = '"' then
      let br := scanStringBody ['"'] cs
      (.str (String.mk br.1), br.2)
    else (.ch c, cs)

/-- A parsed path operator before the number-conformance pass that the
slice action performs when the action list first runs: slice and union
operands are still raw `cty` values (strings or numbers). -/
inductive RawItem where
  | attr (name : String)
  | wildcard
  | index (k : Key)
  | slice (keys : List Key)
  | union (keys : List Key)
  | deep
deriving DecidableEq, Repr

def strToNat (cs : List Char) : Nat :=
  cs.foldl (fun a c => a * 10 + (c.toNat - 48)) 0

/-- `strconv.Atoi` on a scanned integer token (all digits). -/
def strToInt (s : String) : Int := (strToNat s.toList : Int)

/-- `strconv.Unquote` restricted to the simple double-quoted strings the
scanner produces (no escapes): strips the quotes, fails otherwise. -/
def goUnquote (s : String) : Option String :=
  let cs := s.toList
  if cs.length ≥ 2 ∧ cs.head? = some '"' ∧ cs.getLast? = some '"'
      ∧ ((cs.drop 1).dropLast.all fun c => c ≠ '"' ∧ c ≠ '\\') then
    some (String.mk ((cs.drop 1).dropLast))
  else none

/-- Outcome of the separator scan inside `parseArray`'s loop. -/
inductive SepRes where
  | more (cs : List Char) (mode : String)
  | done (cs : List Char)
  | fail (e : String)
deriving DecidableEq, Repr

/-- The separator-position scan of `parseArray`'s loop (non-recursive):
`,` switches/keeps union mode, `:` slice mode, `]` ends the selector. -/
def parseArraySep (cs : List Char) (mode : String) : SepRes :=
  let tr := scanTok arrayMode cs
  match tr.1 with
  | .ch ',' =>
    if mode = "" ∨ mode = "union" then .more tr.2 "union"
    else .fail "unexpected comma in slice"
  | .ch ':' =>
    if mode = "" ∨ mode = "slice" then .more tr.2 "slice"
    else .fail "unexpected colon in union"
  | .ch ']' => .done tr.2
  | .eof => .fail "unexpected end of path"
  | _ => .fail "unexpected token"

/-- The `parseArray` scan loop: parse one value, then a separator, until
`]`; omitted slice parts are recorded as 0. -/
def parseArrayLoop : Nat → List Char → List Key → String →
    Except String (List Key × String × List Char)
  | 0, _, _, _ => .error "parser out of fuel"
  | fuel + 1, cs, indexes, mode =>
    let afterValue := fun (cs2 : List Char) (indexes2 : List Key) =>
      match parseArraySep cs2 mode with
      | .more cs3 mode2 => parseArrayLoop fuel cs3 indexes2 mode2
      | .done cs3 => .ok (indexes2, mode, cs3)
      | .fail e => .error e
    let tr := scanTok arrayMode cs
    match tr.1 with
    | .int s => afterValue tr.2 (indexes ++ [Key.num (strToInt s)])
    | .ch '-' =>
      let tr2 := scanTok arrayMode tr.2
      match tr2.1 with
      | .int s => afterValue tr2.2 (indexes ++ [Key.num (-(strToInt s))])
      | _ => .error "expect an int after the minus - sign"
    | .ident s => afterValue tr.2 (indexes ++ [Key.str s])
    | .str raw =>
      match goUnquote raw with
      | some s => afterValue tr.2 (indexes ++ [Key.str s])
      | none => .error "bad string"
    | .ch '(' => .error "cant handle ("
    | .ch ':' =>
      if mode = "" ∨ mode = "slice" then
        parseArrayLoop fuel tr.2 (indexes ++ [Key.num 0]) "slice"
      else .error "unexpected colon after union"
    | .ch ']' =>
      if mode = "slice" then .ok (indexes ++ [Key.num 0], mode, tr.2)
      else if indexes.length = 0 then .error "expected at least one key, index or expression"
      else .ok (indexes, mode, tr.2)
    | .eof => .error "unexpected end of path"
    | _ => .error "unexpected token"

/-- `parseArray`: classify the bracket contents as slice, single index or
union; more than 3 slice parts is a syntax error. -/
def parseArray (fuel : Nat) (cs : List Char) : Except String (RawItem × List Char) :=
  match parseArrayLoop fuel cs [] "" with
  | .error e => .error e
  | .ok (indexes, mode, rest) =>
    if mode = "slice" then
      if indexes.length > 3 then .error "bad range syntax [start:end:step]"
      else .ok (.slice indexes, rest)
    else if indexes.length = 1 then .ok (.index (indexes.headD (Key.num 0)), rest)
    else .ok (.union indexes, rest)

/-- `parseBracket`: a filter (unimplemented: compile error), `[*]`, or an
array selector.  Go peeks one raw character. -/
def parseBracket (fuel : Nat) (mode : ScanMode) (cs : List Char) :
    Except String (RawItem × ScanMode × List Char) :=
  match cs with
  | '?' :: _ => .error "Filters are not (yet) implemented"
  | '*' :: cs2 =>
    let tr := scanTok mode cs2
    match tr.1 with
    | .ch ']' => .ok (.wildcard, mode, tr.2)
    | _ => .error "expected closing bracket after [*"
  | _ =>
    match parseArray fuel cs with
    | .ok (item, rest) => .ok (item, arrayMode, rest)
    | .error e => .error e

/-- The `parsePath` loop (with `parseObjAccess`, `prepareWildcard` and
`parseDeep` inlined at their call sites); the scanner mode is parser
state that persists across iterations. -/
def parsePath : Nat → ScanMode → List Char → List RawItem → Except String (List RawItem)
  | 0, _, _, _ => .error "parser out of fuel"
  | fuel + 1, mode, cs, acc =>
    let tr := scanTok mode cs
    match tr.1 with
    | .ch '.' =>
      let tr2 := scanTok identsMode tr.2
      match tr2.1 with
      | .ident s => parsePath fuel identsMode tr2.2 (acc ++ [.attr s])
      | .ch '*' => parsePath fuel identsMode tr2.2 (acc ++ [.wildcard])
      | .ch '.' =>
        let tr3 := scanTok identsMode tr2.2
        match tr3.1 with
        | .ident s => parsePath fuel identsMode tr3.2 (acc ++ [.deep, .attr s])
        | .ch '[' =>
          match parseBracket fuel identsMode tr3.2 with
          | .ok (item, mode2, rest2) => parsePath fuel mode2 rest2 (acc ++ [.deep, item])
          | .error e => .error e
        | .ch '*' => parsePath fuel identsMode tr3.2 (acc ++ [.deep])
        | .eof => .error "cannot end with a scan dotdot"
        | _ => .error "unexpected token after deep search dotdot"
      | _ => .error "expected JSON child identifier after dot"
    | .ch '[' =>
      match parseBracket fuel mode tr.2 with
      | .ok (item, mode2, rest2) => parsePath fuel mode2 rest2 (acc ++ [item])
      | .error e => .error e
    | .eof => .ok acc
    | _ => .error "unexpected token"

/-- `parser.parse`: the path must start with `$`. -/
def parseGo (s : String) : Except String (List RawItem) :=
  let cs := s.toList
  let tr := scanTok goTokensMode cs
  if tr.1 = .ch '$' then parsePath (cs.length + 2) goTokensMode tr.2 []
  else .error "path must start with a dollar"

/-- `cty.Number` conformance test. -/
def keyToInt : Key → Option Int
  | .num n => some n
  | .str _ => none

/-- Running the parsed action list on empty inputs (`actions.next(empty,
empty)` in `Evaluate`): each action appends its `PathStep` closure, and
`prepareSlice`'s action first checks that every slice operand is a
number, aborting with `not a number` otherwise. -/
def resolveActions : List RawItem → Except String (List Item)
  | [] => .ok []
  | .attr n :: rest => (resolveActions rest).map (Item.attr n :: ·)
  | .wildcard :: rest => (resolveActions rest).map (Item.wildcard :: ·)
  | .index k :: rest => (resolveActions rest).map (Item.index k :: ·)
  | .union ks :: rest => (resolveActions rest).map (Item.union ks :: ·)
  | .deep :: rest => (resolveActions rest).map (Item.deep :: ·)
  | .slice ks :: rest =>
    match ks.mapM keyToInt with
    | some ns => (resolveActions rest).map (Item.slice ns :: ·)
    | none => .error "not a number"

/-- `JSONPath.Evaluate` end to end: parse, run the action list (aborting
on a parse error with the zero `ValueContainer`, or keeping the initial
working set when the action pass errors), then run the step loop. -/
def EvaluateGo (fuel : Nat) (path : String) (value : Value) :
    GoOutcome (ValueContainer × Option String) :=
  match parseGo path with
  | .error e => .ok (⟨[], [], false⟩, some e)
  | .ok raw =>
    match resolveActions raw with
    | .error e => .ok (⟨[value], [[]], true⟩, some e)
    | .ok items => (evaluateItems fuel items value).bind fun V => .ok (V, none)

/-- `cty.NewPathSet(ps...).Has(p)`. -/
def pathSetHas (ps : List CtyPath) (p : CtyPath) : Bool := ps.any (fun q => q = p)

mutual
/-- `cty.Transform`: rebuild the tree bottom-up, applying the callback to
every node with its path. -/
def ctyTransform (f : CtyPath → Value → Value) (p : CtyPath) : Value → Value
  | .vlist xs => f p (.vlist (ctyTransformIdx f p 0 xs))
  | .vtuple xs => f p (.vtuple (ctyTransformIdx f p 0 xs))
  | .vmap fs => f p (.vmap (ctyTransformFieldsIdx f p fs))
  | .vobj fs => f p (.vobj (ctyTransformFieldsAttr f p fs))
  | v => f p v

def ctyTransformIdx (f : CtyPath → Value → Value) (p : CtyPath) :
    Nat → List Value → List Value
  | _, [] => []
  | i, x :: rest =>
    ctyTransform f (p ++ [PStep.index (Key.num i)]) x :: ctyTransformIdx f p (i + 1) rest

def ctyTransformFieldsIdx (f : CtyPath → Value → Value) (p : CtyPath) :
    List (String × Value) → List (String × Value)
  | [] => []
  | (k, x) :: rest =>
    (k, ctyTransform f (p ++ [PStep.index (Key.str k)]) x) :: ctyTransformFieldsIdx f p rest

def ctyTransformFieldsAttr (f : CtyPath → Value → Value) (p : CtyPath) :
    List (String × Value) → List (String × Value)
  | [] => []
  | (k, x) :: rest =>
    (k, ctyTransform f (p ++ [PStep.getAttr k]) x) :: ctyTransformFieldsAttr f p rest
end

/-- `ReplaceByPath`: evaluate the target path; on any evaluation error
return `(cty.NilVal, nil)` — the error is swallowed; otherwise transform
the document, substituting `newValue` at every matched path. -/
def ReplaceByPathGo (fuel : Nat) (wholeDocument : Value) (targetPath : String)
    (newValue : Value) : GoOutcome (Option Value × Option String) :=
  (EvaluateGo fuel targetPath wholeDocument).bind fun vperr =>
    match vperr.2 with
    | some _ => .ok (none, none)
    | none =>
      .ok (some (ctyTransform
        (fun p v => if pathSetHas vperr.1.paths p then newValue else v) [] wholeDocument),
        none)

/-! ## The second-iteration CPS evaluator (`Prepare`, src/jsonpath.go) -/

/-- `cty.Value.AsValueSlice`: the element values in iterator order;
`nil` (here `[]`) for non-iterables. -/
def asValueSlice : Value → List Value
  | .vlist xs => xs
  | .vtuple xs => xs
  | .vmap fs => fs.map Prod.snd
  | .vobj fs => fs.map Prod.snd
  | _ => []

/-- A value as passed between the second iteration's actions, together
with whether it carries the `result` mark (set on the tuples built by
fan-out actions). -/
structure MVal where
  val : Value
  marked : Bool
deriving DecidableEq, Repr

/-- The second-iteration actions needed by the claims: `parseObjAccess`,
`prepareWildcard`, and the final action added at EOF that returns the
current node. -/
inductive Act2 where
  | objAccess (ident : String)
  | wildcard
  | terminal
deriving DecidableEq, Repr

/-- `prepareWildcard`'s element loop, parameterised by the continuation
that runs the remaining actions on one child: a per-child error just
skips that child; marked child results are spliced, unmarked ones
appended. -/
def wildLoopF (f : Value → Except String MVal) : List Value → List Value
  | [] => []
  | child :: more =>
    match f child with
    | .error _ => wildLoopF f more
    | .ok mv =>
      (if mv.marked then asValueSlice mv.val else [mv.val]) ++ wildLoopF f more

/-- Run the action chain (`actions.next`): each action transforms the
current node `c` and passes the remainder of the chain the result. -/
def run2 : List Act2 → Value → Value → Except String MVal
  | [], _, _ => .error "no actions"
  | .terminal :: _, _, c => .ok ⟨c, false⟩
  | .objAccess n :: rest, r, c =>
    match c with
    | .vobj fs =>
      match lookupField fs n with
      | some attr => run2 rest r attr
      | none => .error ("attribute " ++ n ++ " does not exist")
    | .vmap fs =>
      match lookupField fs n with
      | some attr => run2 rest r attr
      | none => .error ("attribute " ++ n ++ " does not exist")
    | .vlist _ => .error ("attribute " ++ n ++ " does not exist")
    | .vtuple _ => .error ("attribute " ++ n ++ " does not exist")
    | _ => .error "not supporting attributes"
  | .wildcard :: rest, r, c =>
    if canIterate c then .ok ⟨.vtuple (wildLoopF (run2 rest r) (asValueSlice c)), true⟩
    else .error "cannot iterate"

/-! ## The third-iteration `evalArray` (kubernetes-derived, src/jsonpath.go) -/

/-- Modelled from the spec: the node/parameter type declarations of the
third iteration's parser (`ArrayNode`, `Param`) are not under src/; per
the spec a CompiledPath is immutable, so `Params` is a by-value triple —
`params := node.Params` copies it and the body's writes stay local. -/
structure Param where
  known : Bool
  value : Int
  derived : Bool
deriving DecidableEq, Repr

/-- Modelled from the spec: the compiled slice node holding the three
slice parameters. -/
structure ArrayNode where
  p0 : Param
  p1 : Param
  p2 : Param
deriving DecidableEq, Repr

/-- The index sequence of `evalArray`'s final emission loop
(`for i := 0; i < len; i += step`, `step ≥ 1`). -/
def stepPick (len step : Nat) : List Nat :=
  (List.range len).filter (fun i => i % step = 0)

/-- `child, _ := cty.Path{}.IndexInt(item).Apply(unmarked)` with the
returned error discarded: the element for lists and tuples (the emission
indices are in bounds); for every other input an `IndexStep` holding a
numeric key does not apply — `Apply` errors and the appended `child` is
`cty.NilVal`, cty's zero value, modelled here as `vnull`. -/
def indexIntApply (v : Value) (i : Nat) : Value :=
  match v with
  | .vlist xs => xs.getD i Value.vnull
  | .vtuple xs => xs.getD i Value.vnull
  | _ => Value.vnull

/-- `evalArray`'s loop body over the input values, accumulating `result`:
resolve the slice bounds against each value's length on a local copy of
the node's parameters, bounds-check, slice, then emit every `step`-th
element. -/
def evalArrayGo (node : ArrayNode) : List Value → List Value → Except String (List Value)
  | [], result => .ok result
  | value :: more, result =>
    match lengthInt value with
    | none => .error "panic: LengthInt on non-collection"
    | some sliceLength =>
      let sl : Int := sliceLength
      let p0v0 := if ¬ node.p0.known then 0 else node.p0.value
      let p0v := if p0v0 < 0 then p0v0 + sl else p0v0
      let p1v0 := if ¬ node.p1.known then sl else node.p1.value
      let p1v := if p1v0 < 0 ∨ (p1v0 = 0 ∧ node.p1.derived) then p1v0 + sl else p1v0
      if p1v ≠ p0v then
        if p0v ≥ sl ∨ p0v < 0 then .error "array index out of bounds"
        else if p1v > sl ∨ p1v < 0 then .error "array index out of bounds"
        else if p0v > p1v then .error "starting index is greater than ending index"
        else
          let indices := ((List.range sliceLength).drop p0v.toNat).take (p1v - p0v).toNat
          let newVal := indices.map (fun i => indexIntApply value i)
          if node.p2.known ∧ node.p2.value ≤ 0 then .error "step must be > 0"
          else
            let step := if node.p2.known then node.p2.value.toNat else 1
            evalArrayGo node more
              (result ++ (stepPick newVal.length step).map (fun i => newVal.getD i Value.vnull))
      else .ok result

/-- One `evalArray` call on the shared compiled node: the returned node
is the caller's view of the node after the call — unchanged, because the
parameter array is copied by value. -/
def evalArrayCall (node : ArrayNode) (input : List Value) :
    ArrayNode × Except String (List Value) :=
  (node, evalArrayGo node input [])

/-! ## The filter command of src/obj.go (`evaluateCommands`, case `?(…)`) -/

/-- Null test (`value.IsNull()`). -/
def isNullV : Value → Bool
  | .vnull => true
  | _ => false

/-- Bool-type conformance (`TestConformance(cty.Bool)` succeeds). -/
def isBoolType : Value → Bool
  | .vbool _ => true
  | _ => false

/-- `cty.Value.True()` on the values reaching it here (bool-typed). -/
def valueTrue : Value → Bool
  | .vbool b => b
  | _ => false

/-- The per-element filter loop: evaluate the compiled predicate
(`eval(temp, expr, cmd)`, abstracted as `pred`) on each element; an eval
error aborts; null or non-boolean results skip the element silently;
`true` keeps it, preserving order. -/
def filterInner (pred : Value → Except String Value) :
    List Value → List Value → Except String (List Value)
  | [], L => .ok L
  | temp :: more, L =>
    match pred temp with
    | .error _ => .error "wrong request"
    | .ok value =>
      if isNullV value ∨ ¬ isBoolType value then filterInner pred more L
      else if ¬ valueTrue value then filterInner pred more L
      else filterInner pred more (L ++ [temp])

/-- The outer loop over the current working set: only indexed containers
(`isArray`) are filtered, their kept elements accumulating into one list. -/
def filterOuter (pred : Value → Except String Value) :
    List Value → List Value → Except String (List Value)
  | [], L => .ok L
  | el :: more, L =>
    if Value.isIndexed el then
      match filterInner pred (asValueSlice el) L with
      | .error e => .error e
      | .ok L2 => filterOuter pred more L2
    else filterOuter pred more L

/-- The whole `?(…)` case of `evaluateCommands`: run the filter over the
working set; an empty kept-list yields the empty working set, otherwise
a single new flat indexed container of the kept elements. -/
def filterCommand (pred : Value → Except String Value) (result : List Value) :
    Except String (List Value) :=
  match filterOuter pred result [] with
  | .error e => .error e
  | .ok L => .ok (if L = [] then [] else [Value.vlist L])

/-! ## Helper characterisations used in the claim statements -/

/-- The contribution of one fan-out candidate to an attribute access `n`
in the second iteration: keyed containers yield their `n` entry, every
other candidate errors and is dropped. -/
def attrContribution (c : Value) (n : String) : Option Value :=
  match c with
  | .vobj fs => lookupField fs n
  | .vmap fs => lookupField fs n
  | _ => none

/-- What one union key selects from a keyed root in `Evaluate`: string
keys look up the attribute, numeric keys error in `makeStep` and are
dropped. -/
def unionPick (fields : List (String × Value)) : Key → Option Value
  | .str s => lookupField fields s
  | .num _ => none

def exceptToOption {ε α : Type} : Except ε α → Option α
  | .ok a => some a
  | .error _ => none

/-- Whether the filter loop keeps an element: the predicate evaluation
succeeded with a non-null boolean `true`. -/
def predKeeps (pred : Value → Except String Value) (e : Value) : Bool :=
  match pred e with
  | .ok v => !(isNullV v) && isBoolType v && valueTrue v
  | .error _ => false

/-- Repeated evaluations of the shared compiled node, each seeing the
node state the previous call left behind. -/
def evalArrayRepeated (node : ArrayNode) (input : List Value) :
    Nat → List (Except String (List Value))
  | 0 => []
  | n + 1 =>
    (evalArrayCall node input).2 ::
      evalArrayRepeated (evalArrayCall node input).1 input n

/-! ## Concrete sample values -/

/-- `{A: [1, 2], B: [3, 4]}` (fields in `cty`'s sorted iteration order). -/
def sampleRootAB : Value :=
  .vobj [("A", .vtuple [.vnum 1, .vnum 2]), ("B", .vtuple [.vnum 3, .vnum 4])]

/-- The spec's §8 nesting sample: `C` attributes under several branches,
one inside `D.V = ["a", "b", {C: 2}]`. -/
def sampleRootDV : Value :=
  .vobj [("A", .vobj [("C", .vnum 1)]),
         ("D", .vobj [("V", .vtuple [.vstr "a", .vstr "b", .vobj [("C", .vnum 2)]])])]

/-- The spec's union sample `{B: "value", C: 3.14}`. -/
def sampleRootBC : Value := .vobj [("B", .vstr "value"), ("C", .vnum (157 / 50))]

/-- `{A: ["x", "y", "z"]}`, the root for the zero-step slice run. -/
def sampleRootXYZ : Value :=
  .vobj [("A", .vtuple [.vstr "x", .vstr "y", .vstr "z"])]

def carValue (brand model : String) : Value :=
  .vobj [("Brand", .vstr brand), ("Model", .vstr model)]

/-- A concrete compiled filter predicate in the shape `eval` produces for
`@.Brand == 'Honda'`: look up `Brand` and compare. -/
def brandHondaPred (v : Value) : Except String Value :=
  match v with
  | .vobj fs =>
    match lookupField fs "Brand" with
    | some (.vstr b) => .ok (.vbool (b = "Honda"))
    | _ => .ok .vnull
  | _ => .ok .vnull

def sampleCars : List Value :=
  [carValue "Honda" "Civic", carValue "Ford" "Mustang", carValue "Honda" "Accord"]

/-! ## Lemmas -/

theorem negmax_eq (n mx : Int) :
    negmax n mx = if n < 0 then max (mx + n) 0 else min n mx := by
  unfold negmax
  split
  · dsimp only
    split <;> omega
  · split <;> omega

theorem negmax_bounds (n : Int) (len : Nat) :
    0 ≤ negmax n len ∧ negmax n len ≤ len := by
  rw [negmax_eq]
  split <;> omega

theorem sliceLoopUp_sound (inc : Int) (hinc : 0 < inc) :
    ∀ (fuel : Nat) (i R : Int) (l : List Int),
      sliceLoopUp fuel i R inc = some l →
      List.Chain' (fun a b => a < b) l ∧ ∀ x ∈ l, i ≤ x ∧ x < R := by
  intro fuel
  induction fuel with
  | zero =>
    intro i R l h
    unfold sliceLoopUp at h
    split at h
    · cases h
    · cases h
      exact ⟨List.chain'_nil, by simp⟩
  | succ m ih =>
    intro i R l h
    unfold sliceLoopUp at h
    split at h
    · rename_i hiR
      cases hrec : sliceLoopUp m (i + inc) R inc with
      | none => rw [hrec] at h; cases h
      | some l' =>
        rw [hrec] at h
        cases h
        obtain ⟨hch, hb⟩ := ih (i + inc) R l' hrec
        refine ⟨List.chain'_cons'.mpr ⟨?_, hch⟩, ?_⟩
        · intro y hy
          have := hb y (List.mem_of_mem_head? hy)
          omega
        · intro x hx
          rcases List.mem_cons.mp hx with rfl | hx
          · omega
          · have := hb x hx; omega
    · cases h
      exact ⟨List.chain'_nil, by simp⟩

theorem sliceLoopUp_some (inc : Int) (hinc : 0 < inc) :
    ∀ (fuel : Nat) (i R : Int), (R - i).toNat ≤ fuel →
      ∃ l, sliceLoopUp fuel i R inc = some l := by
  intro fuel
  induction fuel with
  | zero =>
    intro i R hf
    refine ⟨[], ?_⟩
    unfold sliceLoopUp
    split
    · rename_i hiR; omega
    · rfl
  | succ m ih =>
    intro i R hf
    unfold sliceLoopUp
    split
    · rename_i hiR
      obtain ⟨l, hl⟩ := ih (i + inc) R (by omega)
      exact ⟨i :: l, by rw [hl]; rfl⟩
    · exact ⟨[], rfl⟩

theorem sliceLoopDown_sound (inc : Int) (hinc : inc < 0) :
    ∀ (fuel : Nat) (i L : Int) (l : List Int),
      sliceLoopDown fuel i L inc = some l →
      List.Chain' (fun a b => a > b) l ∧ ∀ x ∈ l, L ≤ x ∧ x ≤ i := by
  intro fuel
  induction fuel with
  | zero =>
    intro i L l h
    unfold sliceLoopDown at h
    split at h
    · cases h
    · cases h
      exact ⟨List.chain'_nil, by simp⟩
  | succ m ih =>
    intro i L l h
    unfold sliceLoopDown at h
    split at h
    · rename_i hLi
      cases hrec : sliceLoopDown m (i + inc) L inc with
      | none => rw [hrec] at h; cases h
      | some l' =>
        rw [hrec] at h
        cases h
        obtain ⟨hch, hb⟩ := ih (i + inc) L l' hrec
        refine ⟨List.chain'_cons'.mpr ⟨?_, hch⟩, ?_⟩
        · intro y hy
          have := hb y (List.mem_of_mem_head? hy)
          omega
        · intro x hx
          rcases List.mem_cons.mp hx with rfl | hx
          · omega
          · have := hb x hx; omega
    · cases h
      exact ⟨List.chain'_nil, by simp⟩

theorem sliceLoopDown_some (inc : Int) (hinc : inc < 0) :
    ∀ (fuel : Nat) (i L : Int), (i - L + 1).toNat ≤ fuel →
      ∃ l, sliceLoopDown fuel i L inc = some l := by
  intro fuel
  induction fuel with
  | zero =>
    intro i L hf
    refine ⟨[], ?_⟩
    unfold sliceLoopDown
    split
    · rename_i hLi; omega
    · rfl
  | succ m ih =>
    intro i L hf
    unfold sliceLoopDown
    split
    · rename_i hLi
      obtain ⟨l, hl⟩ := ih (i + inc) L (by omega)
      exact ⟨i :: l, by rw [hl]; rfl⟩
    · exact ⟨[], rfl⟩

theorem sliceLoopUp_zero_step : ∀ (fuel : Nat) (i R : Int), i < R →
    sliceLoopUp fuel i R 0 = none := by
  intro fuel
  induction fuel with
  | zero => intro i R h; unfold sliceLoopUp; simp [h]
  | succ m ih =>
    intro i R h
    unfold sliceLoopUp
    have := ih i R h
    simp only [if_pos h]
    rw [show i + (0 : Int) = i by omega, this]
    rfl

theorem sliceResolve_bounds (indexes : List Int) (len : Nat) :
    0 ≤ sliceResolveL indexes len ∧ sliceResolveL indexes len ≤ len ∧
    0 ≤ sliceResolveR indexes len ∧ sliceResolveR indexes len ≤ len := by
  unfold sliceResolveL sliceResolveR
  have h1 := negmax_bounds (indexes.getD 0 0) len
  have h2 := negmax_bounds (indexes.getD 1 0) len
  split <;> omega

/-! ## Claim theorems -/

/-- **C4**: slice bounds are resolved with `negmax` — a negative bound
becomes `len + value` clamped into `[0, len]`, a nonnegative one is
clamped to at most `len`; an omitted start is parsed as 0 and resolves to
0, the omitted-end encoding 0 resolves to `len`, and a missing third part
defaults the step to 1.  For a nonzero step the emitted index sequence is
strictly increasing (positive step) or strictly decreasing (negative
step), and lies within `[resolvedStart, resolvedEnd)`. -/
theorem slice_resolution_and_monotonicity
    (indexes : List Int) (len fuel : Nat) (hfuel : len ≤ fuel)
    (hstep : sliceInc indexes ≠ 0) :
    (∀ n mx : Int, negmax n mx = if n < 0 then max (mx + n) 0 else min n mx) ∧
    (∀ (s : Int) (rest : List Int), sliceResolveL (s :: rest) len = negmax s len) ∧
    (negmax 0 len = 0) ∧
    (∀ s : Int, sliceResolveR [s, 0] len = len) ∧
    (indexes.length ≠ 3 → sliceInc indexes = 1) ∧
    ∃ l, sliceIndices fuel indexes len = some l ∧
      (∀ x ∈ l, sliceResolveL indexes len ≤ x ∧ x < sliceResolveR indexes len) ∧
      (0 < sliceInc indexes → List.Chain' (fun a b => a < b) l) ∧
      (sliceInc indexes < 0 → List.Chain' (fun a b => a > b) l) := by
  obtain ⟨hL0, hLlen, hR0, hRlen⟩ := sliceResolve_bounds indexes len
  refine ⟨negmax_eq, fun s rest => rfl, by rw [negmax_eq]; omega, fun s => rfl,
    fun h => by unfold sliceInc; rw [if_neg h], ?_⟩
  rcases lt_trichotomy (sliceInc indexes) 0 with hneg | hzero | hpos
  · obtain ⟨l, hl⟩ := sliceLoopDown_some (sliceInc indexes) hneg fuel
      (sliceResolveR indexes len - 1) (sliceResolveL indexes len) (by omega)
    obtain ⟨hch, hb⟩ := sliceLoopDown_sound (sliceInc indexes) hneg fuel
      (sliceResolveR indexes len - 1) (sliceResolveL indexes len) l hl
    refine ⟨l, ?_, ?_, fun h => absurd h (by omega), fun _ => hch⟩
    · unfold sliceIndices
      rw [if_pos hneg]
      exact hl
    · intro x hx
      have := hb x hx
      omega
  · exact absurd hzero hstep
  · obtain ⟨l, hl⟩ := sliceLoopUp_some (sliceInc indexes) hpos fuel
      (sliceResolveL indexes len) (sliceResolveR indexes len) (by omega)
    obtain ⟨hch, hb⟩ := sliceLoopUp_sound (sliceInc indexes) hpos fuel
      (sliceResolveL indexes len) (sliceResolveR indexes len) l hl
    refine ⟨l, ?_, ?_, fun _ => hch, fun h => absurd h (by omega)⟩
    · unfold sliceIndices
      rw [if_neg (by omega)]
      exact hl
    · intro x hx
      exact hb x hx

/-- Witness for C4 at the spec's `$.A[1:4]` example (length 6). -/
theorem slice_resolution_and_monotonicity_witness :
    (∀ n mx : Int, negmax n mx = if n < 0 then max (mx + n) 0 else min n mx) ∧
    (∀ (s : Int) (rest : List Int), sliceResolveL (s :: rest) 6 = negmax s 6) ∧
    (negmax 0 6 = 0) ∧
    (∀ s : Int, sliceResolveR [s, 0] 6 = 6) ∧
    (([1, 4] : List Int).length ≠ 3 → sliceInc [1, 4] = 1) ∧
    ∃ l, sliceIndices 6 [1, 4] 6 = some l ∧
      (∀ x ∈ l, sliceResolveL [1, 4] 6 ≤ x ∧ x < sliceResolveR [1, 4] 6) ∧
      (0 < sliceInc [1, 4] → List.Chain' (fun a b => a < b) l) ∧
      (sliceInc [1, 4] < 0 → List.Chain' (fun a b => a > b) l) :=
  slice_resolution_and_monotonicity [1, 4] 6 6 (by decide) (by decide)

/-- **C9**: `$.A[0:3:0]` is *not* rejected: it parses into a slice whose
step is 0 (only >3 slice parts trigger `bad range syntax`), the slice
operands pass the number-conformance pass, and evaluating it against
`{A: ["x","y","z"]}` never terminates — `prepareSlice`'s emission loop
`for i := idxL; i < idxR; i += 0` makes no progress for any fuel bound.
The spec instead requires `step == 0` to be an error. -/
theorem zero_step_slice_compiles_then_diverges :
    parseGo "$.A[0:3:0]" =
      .ok [RawItem.attr "A", RawItem.slice [Key.num 0, Key.num 3, Key.num 0]] ∧
    resolveActions [RawItem.attr "A", RawItem.slice [Key.num 0, Key.num 3, Key.num 0]] =
      .ok [Item.attr "A", Item.slice [0, 3, 0]] ∧
    ∀ fuel, EvaluateGo fuel "$.A[0:3:0]" sampleRootXYZ = .diverge := by
  refine ⟨rfl, rfl, fun fuel => ?_⟩
  have hnone : sliceIndices fuel [0, 3, 0] 3 = none := by
    show sliceLoopUp fuel 0 3 0 = none
    exact sliceLoopUp_zero_step fuel 0 3 (by decide)
  have hItem : itemIndices fuel (Item.slice [0, 3, 0])
      (Value.vtuple [Value.vstr "x", Value.vstr "y", Value.vstr "z"]) = .diverge := by
    show (match sliceIndices fuel [0, 3, 0] 3 with
          | none => (GoOutcome.diverge : GoOutcome (List Key × Bool))
          | some l => .ok (l.map Key.num, false)) = .diverge
    rw [hnone]
  have h2 : evalStep fuel 1 (Item.slice [0, 3, 0])
      ⟨[Value.vtuple [Value.vstr "x", Value.vstr "y", Value.vstr "z"]],
       [[PStep.getAttr "A"]], true⟩ = .diverge := by
    show (itemIndices fuel (Item.slice [0, 3, 0])
        (Value.vtuple [Value.vstr "x", Value.vstr "y", Value.vstr "z"])).bind _ = _
    rw [hItem]
    rfl
  show ((evalStep fuel 1 (Item.slice [0, 3, 0])
      ⟨[Value.vtuple [Value.vstr "x", Value.vstr "y", Value.vstr "z"]],
       [[PStep.getAttr "A"]], true⟩).bind _).bind _ = GoOutcome.diverge
  rw [h2]
  rfl

/-- **C1** (violated): evaluating the compiled `$.*[0]` against
`{A: [1, 2], B: [3, 4]}` succeeds with the single pair
`([1, 2], .B[0])` — but `.B[0]` applied to the root yields `3`, not the
paired value `[1, 2]`.  The cause: the step loop of `Evaluate` uses
`V.Paths[i]` with `i` the operator index, not the candidate's own path,
so after any fan-out the provenance attaches to the wrong candidate. -/
theorem roundtrip_provenance_violated :
    EvaluateGo 4 "$.*[0]" sampleRootAB =
      .ok (⟨[Value.vtuple [Value.vnum 1, Value.vnum 2]],
            [[PStep.getAttr "B", PStep.index (Key.num 0)]], true⟩, none) ∧
    applyPath sampleRootAB [PStep.getAttr "B", PStep.index (Key.num 0)] =
      some (Value.vnum 3) ∧
    Value.vnum 3 ≠ Value.vtuple [Value.vnum 1, Value.vnum 2] :=
  ⟨rfl, rfl, by decide⟩

/-- **C8**: `$.`, `$.A[1:4:0:0]` and bare `$..` all fail to compile with
a syntax error, and any compilation error aborts the whole pipeline:
`Evaluate` returns the zero `ValueContainer` with the error — no partial
compiled path is ever evaluated. -/
theorem syntax_errors_abort_compilation :
    parseGo "$." = .error "expected JSON child identifier after dot" ∧
    parseGo "$.A[1:4:0:0]" = .error "bad range syntax [start:end:step]" ∧
    parseGo "$.." = .error "cannot end with a scan dotdot" ∧
    (∀ (s e : String) (fuel : Nat) (v : Value), parseGo s = .error e →
      EvaluateGo fuel s v = .ok (⟨[], [], false⟩, some e)) := by
  refine ⟨rfl, rfl, rfl, ?_⟩
  intro s e fuel v h
  unfold EvaluateGo
  rw [h]

/-- Witness for C8's abort property at `$.`. -/
theorem syntax_errors_abort_compilation_witness :
    EvaluateGo 0 "$." Value.vnull =
      .ok (⟨[], [], false⟩, some "expected JSON child identifier after dot") :=
  syntax_errors_abort_compilation.2.2.2 "$." "expected JSON child identifier after dot"
    0 Value.vnull rfl

/-- **C10**: when the target path's evaluation reports an error,
`ReplaceByPath` returns `(cty.NilVal, nil)` — the error is not
propagated and no transformed document is produced. -/
theorem replace_by_path_swallows_eval_errors
    (fuel : Nat) (doc newValue : Value) (target : String)
    (vc : ValueContainer) (e : String)
    (h : EvaluateGo fuel target doc = .ok (vc, some e)) :
    ReplaceByPathGo fuel doc target newValue = .ok (none, none) := by
  unfold ReplaceByPathGo
  rw [h]
  rfl

/-- Witness for C10 at the uncompilable `$.`. -/
theorem replace_by_path_swallows_eval_errors_witness :
    ReplaceByPathGo 0 Value.vnull "$." (Value.vnum 1) = .ok (none, none) :=
  replace_by_path_swallows_eval_errors 0 Value.vnull (Value.vnum 1) "$." ⟨[], [], false⟩
    "expected JSON child identifier after dot" rfl

/-- Supporting result (under the spec-modelled by-value parameter
array): an `evalArray` call leaves the shared node unchanged, a second
call on the node state left by the first returns the same result, and
every one of `n` chained evaluations returns the same output as the
first. This covers only the slice node's value outputs: the path
sequences of `Eval` are assembled by iterating a runtime-ordered mark
set, outside this embedding. -/
theorem compiled_path_immutable_and_deterministic
    (node : ArrayNode) (input : List Value) :
    (evalArrayCall node input).1 = node ∧
    (evalArrayCall (evalArrayCall node input).1 input).2 = (evalArrayCall node input).2 ∧
    ∀ n, ∀ r ∈ evalArrayRepeated node input n, r = evalArrayGo node input [] := by
  refine ⟨rfl, rfl, ?_⟩
  intro n
  induction n with
  | zero => intro r hr; cases hr
  | succ m ih =>
    intro r hr
    rcases List.mem_cons.mp hr with rfl | hr
    · rfl
    · exact ih r hr

/-- Concrete instance: two chained evaluations of `$.A[1:4]`-shaped
slice parameters on a six-element tuple agree. -/
theorem compiled_path_immutable_and_deterministic_witness :
    (evalArrayCall ⟨⟨true, 1, false⟩, ⟨true, 4, false⟩, ⟨false, 0, false⟩⟩
        [Value.vtuple [Value.vnum 0, Value.vnum 1, Value.vnum 2, Value.vnum 3,
                       Value.vnum 4, Value.vnum 5]]).2 =
      evalArrayGo ⟨⟨true, 1, false⟩, ⟨true, 4, false⟩, ⟨false, 0, false⟩⟩
        [Value.vtuple [Value.vnum 0, Value.vnum 1, Value.vnum 2, Value.vnum 3,
                       Value.vnum 4, Value.vnum 5]] [] :=
  (compiled_path_immutable_and_deterministic
      ⟨⟨true, 1, false⟩, ⟨true, 4, false⟩, ⟨false, 0, false⟩⟩
      [Value.vtuple [Value.vnum 0, Value.vnum 1, Value.vnum 2, Value.vnum 3,
                     Value.vnum 4, Value.vnum 5]]).2.2 1 _
    (List.mem_cons_self _ _)

theorem run2_attr_terminal_ok (n : String) (r c : Value) (a : Value)
    (h : attrContribution c n = some a) :
    run2 [Act2.objAccess n, Act2.terminal] r c = .ok ⟨a, false⟩ := by
  cases c <;> simp [attrContribution] at h <;> simp [run2, h]

theorem run2_attr_terminal_err (n : String) (r c : Value)
    (h : attrContribution c n = none) :
    ∃ e, run2 [Act2.objAccess n, Act2.terminal] r c = .error e := by
  cases c <;> try exact ⟨_, rfl⟩
  case vobj fs =>
    simp only [attrContribution] at h
    exact ⟨"attribute " ++ n ++ " does not exist", by simp [run2, h]⟩
  case vmap fs =>
    simp only [attrContribution] at h
    exact ⟨"attribute " ++ n ++ " does not exist", by simp [run2, h]⟩

theorem wildLoopF_attr (n : String) (r : Value) (cs : List Value) :
    wildLoopF (run2 [Act2.objAccess n, Act2.terminal] r) cs
      = cs.filterMap (fun c => attrContribution c n) := by
  induction cs with
  | nil => rfl
  | cons c rest ih =>
    cases hac : attrContribution c n with
    | none =>
      obtain ⟨e, he⟩ := run2_attr_terminal_err n r c hac
      simp [wildLoopF, he, List.filterMap_cons, hac, ih]
    | some a =>
      simp [wildLoopF, run2_attr_terminal_ok n r c a hac, List.filterMap_cons, hac, ih]

/-- **C2**: against a keyed root lacking attribute `n`, the direct access
`$.n` is a runtime attribute error, while the fanned-out `$.*.n` gathers
only the per-child successes — each child missing `n` contributes
nothing — and so yields an empty result with no error when no child has
`n`. -/
theorem missing_attribute_direct_error_fanout_empty
    (fields : List (String × Value)) (n : String)
    (hmiss : lookupField fields n = none) :
    run2 [Act2.objAccess n, Act2.terminal] (Value.vobj fields) (Value.vobj fields)
      = .error ("attribute " ++ n ++ " does not exist") ∧
    run2 [Act2.wildcard, Act2.objAccess n, Act2.terminal] (Value.vobj fields)
        (Value.vobj fields)
      = .ok ⟨.vtuple (fields.filterMap fun kv => attrContribution kv.2 n), true⟩ ∧
    ((∀ kv ∈ fields, attrContribution kv.2 n = none) →
      run2 [Act2.wildcard, Act2.objAccess n, Act2.terminal] (Value.vobj fields)
        (Value.vobj fields) = .ok ⟨.vtuple [], true⟩) ∧
    run2 [Act2.objAccess n, Act2.terminal] (Value.vmap fields) (Value.vmap fields)
      = .error ("attribute " ++ n ++ " does not exist") ∧
    run2 [Act2.wildcard, Act2.objAccess n, Act2.terminal] (Value.vmap fields)
        (Value.vmap fields)
      = .ok ⟨.vtuple (fields.filterMap fun kv => attrContribution kv.2 n), true⟩ := by
  have hfanm : run2 [Act2.wildcard, Act2.objAccess n, Act2.terminal] (Value.vmap fields)
      (Value.vmap fields)
      = .ok ⟨.vtuple (fields.filterMap fun kv => attrContribution kv.2 n), true⟩ := by
    have h1 : run2 [Act2.wildcard, Act2.objAccess n, Act2.terminal] (Value.vmap fields)
        (Value.vmap fields)
        = .ok ⟨.vtuple (wildLoopF
            (run2 [Act2.objAccess n, Act2.terminal] (Value.vmap fields))
            (asValueSlice (Value.vmap fields))), true⟩ := rfl
    rw [h1, wildLoopF_attr]
    simp only [asValueSlice, List.filterMap_map]
    rfl
  have hfan : run2 [Act2.wildcard, Act2.objAccess n, Act2.terminal] (Value.vobj fields)
      (Value.vobj fields)
      = .ok ⟨.vtuple (fields.filterMap fun kv => attrContribution kv.2 n), true⟩ := by
    have h1 : run2 [Act2.wildcard, Act2.objAccess n, Act2.terminal] (Value.vobj fields)
        (Value.vobj fields)
        = .ok ⟨.vtuple (wildLoopF
            (run2 [Act2.objAccess n, Act2.terminal] (Value.vobj fields))
            (asValueSlice (Value.vobj fields))), true⟩ := rfl
    rw [h1, wildLoopF_attr]
    simp only [asValueSlice, List.filterMap_map]
    rfl
  refine ⟨?_, hfan, ?_, ?_, hfanm⟩
  · simp [run2, hmiss]
  · intro hall
    rw [hfan]
    have : fields.filterMap (fun kv => attrContribution kv.2 n) = [] := by
      simp only [List.filterMap_eq_nil_iff]
      exact hall
    rw [this]
  · simp [run2, hmiss]

/-- Witness for C2 at `{B: "value", C: 3.14}` and the absent `ZZZ`. -/
theorem missing_attribute_direct_error_fanout_empty_witness :
    run2 [Act2.objAccess "ZZZ", Act2.terminal]
        (Value.vobj [("B", Value.vstr "value"), ("C", Value.vnum (157 / 50))])
        (Value.vobj [("B", Value.vstr "value"), ("C", Value.vnum (157 / 50))])
      = .error ("attribute " ++ "ZZZ" ++ " does not exist") ∧
    run2 [Act2.wildcard, Act2.objAccess "ZZZ", Act2.terminal]
        (Value.vobj [("B", Value.vstr "value"), ("C", Value.vnum (157 / 50))])
        (Value.vobj [("B", Value.vstr "value"), ("C", Value.vnum (157 / 50))])
      = .ok ⟨.vtuple ([("B", Value.vstr "value"), ("C", Value.vnum (157 / 50))].filterMap
          fun kv => attrContribution kv.2 "ZZZ"), true⟩ ∧
    ((∀ kv ∈ [("B", Value.vstr "value"), ("C", Value.vnum (157 / 50))],
        attrContribution kv.2 "ZZZ" = none) →
      run2 [Act2.wildcard, Act2.objAccess "ZZZ", Act2.terminal]
        (Value.vobj [("B", Value.vstr "value"), ("C", Value.vnum (157 / 50))])
        (Value.vobj [("B", Value.vstr "value"), ("C", Value.vnum (157 / 50))])
        = .ok ⟨.vtuple [], true⟩) ∧
    run2 [Act2.objAccess "ZZZ", Act2.terminal]
        (Value.vmap [("B", Value.vstr "value"), ("C", Value.vnum (157 / 50))])
        (Value.vmap [("B", Value.vstr "value"), ("C", Value.vnum (157 / 50))])
      = .error ("attribute " ++ "ZZZ" ++ " does not exist") ∧
    run2 [Act2.wildcard, Act2.objAccess "ZZZ", Act2.terminal]
        (Value.vmap [("B", Value.vstr "value"), ("C", Value.vnum (157 / 50))])
        (Value.vmap [("B", Value.vstr "value"), ("C", Value.vnum (157 / 50))])
      = .ok ⟨.vtuple ([("B", Value.vstr "value"), ("C", Value.vnum (157 / 50))].filterMap
          fun kv => attrContribution kv.2 "ZZZ"), true⟩ :=
  missing_attribute_direct_error_fanout_empty
    [("B", Value.vstr "value"), ("C", Value.vnum (157 / 50))] "ZZZ" rfl

theorem walkIdx_eq (xs : List Value) : ∀ (i : Nat) (p : CtyPath),
    walkIdx xs i p = (idxSteps xs i).flatMap (fun sc => walkPre sc.2 (p ++ [sc.1])) := by
  induction xs with
  | nil => intro i p; rfl
  | cons x rest ih =>
    intro i p
    simp only [walkIdx, idxSteps, List.flatMap_cons, ih]

theorem walkFieldsIdx_eq (fs : List (String × Value)) : ∀ (p : CtyPath),
    walkFieldsIdx fs p =
      (fs.map fun kv => (PStep.index (Key.str kv.1), kv.2)).flatMap
        (fun sc => walkPre sc.2 (p ++ [sc.1])) := by
  induction fs with
  | nil => intro p; rfl
  | cons kv rest ih =>
    intro p
    obtain ⟨k, x⟩ := kv
    simp only [walkFieldsIdx, List.map_cons, List.flatMap_cons, ih]

theorem walkFieldsAttr_eq (fs : List (String × Value)) : ∀ (p : CtyPath),
    walkFieldsAttr fs p =
      (fs.map fun kv => (PStep.getAttr kv.1, kv.2)).flatMap
        (fun sc => walkPre sc.2 (p ++ [sc.1])) := by
  induction fs with
  | nil => intro p; rfl
  | cons kv rest ih =>
    intro p
    obtain ⟨k, x⟩ := kv
    simp only [walkFieldsAttr, List.map_cons, List.flatMap_cons, ih]

theorem walkPre_eq (v : Value) (p : CtyPath) :
    walkPre v p = (v, p) ::
      (childSteps v).flatMap (fun sc => walkPre sc.2 (p ++ [sc.1])) := by
  cases v <;>
    simp only [walkPre, childSteps, walkIdx_eq, walkFieldsIdx_eq, walkFieldsAttr_eq,
      List.flatMap_nil]

theorem mem_idxSteps_get? : ∀ (xs : List Value) (i : Nat) (sc : PStep × Value),
    sc ∈ idxSteps xs i →
      ∃ j : Nat, xs.get? j = some sc.2 ∧ sc.1 = PStep.index (Key.num ((i + j : Nat) : Int)) := by
  intro xs
  induction xs with
  | nil => intro i sc h; cases h
  | cons x rest ih =>
    intro i sc h
    rcases List.mem_cons.mp h with rfl | h2
    · exact ⟨0, rfl, by simp⟩
    · obtain ⟨j, hj, hs⟩ := ih (i + 1) sc h2
      refine ⟨j + 1, by simpa using hj, ?_⟩
      rw [hs, show i + 1 + j = i + (j + 1) from by omega]

theorem get?_mem_idxSteps : ∀ (xs : List Value) (i j : Nat) (x : Value),
    xs.get? j = some x →
      (PStep.index (Key.num ((i + j : Nat) : Int)), x) ∈ idxSteps xs i := by
  intro xs
  induction xs with
  | nil => intro i j x h; cases h
  | cons y rest ih =>
    intro i j x h
    cases j with
    | zero =>
      cases h
      simp [idxSteps]
    | succ j' =>
      have := ih (i + 1) j' x (by simpa using h)
      rw [show i + (j' + 1) = i + 1 + j' from by omega]
      exact List.mem_cons_of_mem _ this

theorem lookupField_mem : ∀ (fs : List (String × Value)) (k : String) (v : Value),
    lookupField fs k = some v → (k, v) ∈ fs := by
  intro fs
  induction fs with
  | nil => intro k v h; cases h
  | cons kv rest ih =>
    intro k v h
    obtain ⟨k0, v0⟩ := kv
    by_cases hk : k0 = k
    · subst hk
      simp [lookupField] at h
      subst h
      exact List.mem_cons_self _ _
    · simp [lookupField, hk] at h
      exact List.mem_cons_of_mem _ (ih k v h)

theorem lookupField_of_mem_nodup : ∀ (fs : List (String × Value)) (k : String) (v : Value),
    keysNodup fs = true → (k, v) ∈ fs → lookupField fs k = some v := by
  intro fs
  induction fs with
  | nil => intro k v _ h; cases h
  | cons kv rest ih =>
    intro k v hnd hmem
    obtain ⟨k0, v0⟩ := kv
    simp only [keysNodup, Bool.and_eq_true, List.all_eq_true] at hnd
    rcases List.mem_cons.mp hmem with heq | hmem2
    · cases heq
      simp [lookupField]
    · have hne0 : ¬(k0 = k) := by
        have := hnd.1 (k, v) hmem2
        simp at this
        exact fun hEq => this hEq.symm
      simp only [lookupField]
      rw [if_neg hne0]
      exact ih k v hnd.2 hmem2

theorem wfList_mem : ∀ (xs : List Value), wfList xs = true → ∀ x ∈ xs, wfVal x = true := by
  intro xs
  induction xs with
  | nil => intro _ x h; cases h
  | cons y rest ih =>
    intro h x hx
    simp only [wfList, Bool.and_eq_true] at h
    rcases List.mem_cons.mp hx with rfl | hx2
    · exact h.1
    · exact ih h.2 x hx2

theorem wfFields_mem : ∀ (fs : List (String × Value)), wfFields fs = true →
    ∀ kv ∈ fs, wfVal kv.2 = true := by
  intro fs
  induction fs with
  | nil => intro _ kv h; cases h
  | cons kv0 rest ih =>
    intro h kv hkv
    obtain ⟨k, x⟩ := kv0
    simp only [wfFields, Bool.and_eq_true] at h
    rcases List.mem_cons.mp hkv with rfl | hkv2
    · exact h.1
    · exact ih h.2 kv hkv2

theorem childSteps_apply {v : Value} (hwf : wfVal v = true) :
    ∀ sc ∈ childSteps v, applyPStep v sc.1 = some sc.2 := by
  intro sc hsc
  cases v with
  | vlist xs =>
    obtain ⟨j, hj, hs⟩ := mem_idxSteps_get? xs 0 sc hsc
    have hj2 : xs[j]? = some sc.2 := by simpa using hj
    rw [hs]
    simp [applyPStep, hj2]
  | vtuple xs =>
    obtain ⟨j, hj, hs⟩ := mem_idxSteps_get? xs 0 sc hsc
    have hj2 : xs[j]? = some sc.2 := by simpa using hj
    rw [hs]
    simp [applyPStep, hj2]
  | vmap fs =>
    simp only [wfVal, Bool.and_eq_true] at hwf
    simp only [childSteps, List.mem_map] at hsc
    obtain ⟨kv, hkv, rfl⟩ := hsc
    simpa [applyPStep] using lookupField_of_mem_nodup fs kv.1 kv.2 hwf.1 hkv
  | vobj fs =>
    simp only [wfVal, Bool.and_eq_true] at hwf
    simp only [childSteps, List.mem_map] at hsc
    obtain ⟨kv, hkv, rfl⟩ := hsc
    simpa [applyPStep] using lookupField_of_mem_nodup fs kv.1 kv.2 hwf.1 hkv
  | vnull => cases hsc
  | vbool b => cases hsc
  | vnum n => cases hsc
  | vstr s => cases hsc

theorem childSteps_wf {v : Value} (hwf : wfVal v = true) :
    ∀ sc ∈ childSteps v, wfVal sc.2 = true := by
  intro sc hsc
  cases v with
  | vlist xs =>
    obtain ⟨j, hj, _⟩ := mem_idxSteps_get? xs 0 sc hsc
    exact wfList_mem xs (by simpa [wfVal] using hwf) sc.2 (List.get?_mem hj)
  | vtuple xs =>
    obtain ⟨j, hj, _⟩ := mem_idxSteps_get? xs 0 sc hsc
    exact wfList_mem xs (by simpa [wfVal] using hwf) sc.2 (List.get?_mem hj)
  | vmap fs =>
    simp only [wfVal, Bool.and_eq_true] at hwf
    simp only [childSteps, List.mem_map] at hsc
    obtain ⟨kv, hkv, rfl⟩ := hsc
    exact wfFields_mem fs hwf.2 kv hkv
  | vobj fs =>
    simp only [wfVal, Bool.and_eq_true] at hwf
    simp only [childSteps, List.mem_map] at hsc
    obtain ⟨kv, hkv, rfl⟩ := hsc
    exact wfFields_mem fs hwf.2 kv hkv
  | vnull => cases hsc
  | vbool b => cases hsc
  | vnum n => cases hsc
  | vstr s => cases hsc

theorem childSteps_sizeOf {v : Value} :
    ∀ sc ∈ childSteps v, sizeOf sc.2 < sizeOf v := by
  intro sc hsc
  cases v with
  | vlist xs =>
    obtain ⟨j, hj, _⟩ := mem_idxSteps_get? xs 0 sc hsc
    have h1 := List.sizeOf_lt_of_mem (List.get?_mem hj)
    simp only [Value.vlist.sizeOf_spec]
    omega
  | vtuple xs =>
    obtain ⟨j, hj, _⟩ := mem_idxSteps_get? xs 0 sc hsc
    have h1 := List.sizeOf_lt_of_mem (List.get?_mem hj)
    simp only [Value.vtuple.sizeOf_spec]
    omega
  | vmap fs =>
    simp only [childSteps, List.mem_map] at hsc
    obtain ⟨kv, hkv, rfl⟩ := hsc
    have h1 := List.sizeOf_lt_of_mem hkv
    have h2 : sizeOf kv.2 < sizeOf kv := by cases kv; simp
    simp only [Value.vmap.sizeOf_spec]
    omega
  | vobj fs =>
    simp only [childSteps, List.mem_map] at hsc
    obtain ⟨kv, hkv, rfl⟩ := hsc
    have h1 := List.sizeOf_lt_of_mem hkv
    have h2 : sizeOf kv.2 < sizeOf kv := by cases kv; simp
    simp only [Value.vobj.sizeOf_spec]
    omega
  | vnull => cases hsc
  | vbool b => cases hsc
  | vnum n => cases hsc
  | vstr s => cases hsc

theorem apply_childSteps : ∀ (v : Value) (s : PStep) (c : Value),
    applyPStep v s = some c → (s, c) ∈ childSteps v := by
  intro v s c h
  cases v with
  | vobj fs =>
    cases s with
    | getAttr n =>
      exact List.mem_map.mpr ⟨(n, c), lookupField_mem fs n c (by simpa [applyPStep] using h), rfl⟩
    | index k => cases k <;> simp [applyPStep] at h
  | vmap fs =>
    cases s with
    | getAttr n => simp [applyPStep] at h
    | index k =>
      cases k with
      | str kk =>
        exact List.mem_map.mpr
          ⟨(kk, c), lookupField_mem fs kk c (by simpa [applyPStep] using h), rfl⟩
      | num m => simp [applyPStep] at h
  | vlist xs =>
    cases s with
    | getAttr n => simp [applyPStep] at h
    | index k =>
      cases k with
      | str kk => simp [applyPStep] at h
      | num m =>
        simp only [applyPStep] at h
        split at h
        · rename_i hm
          have := get?_mem_idxSteps xs 0 m.toNat c h
          simpa [Int.toNat_of_nonneg hm] using this
        · cases h
  | vtuple xs =>
    cases s with
    | getAttr n => simp [applyPStep] at h
    | index k =>
      cases k with
      | str kk => simp [applyPStep] at h
      | num m =>
        simp only [applyPStep] at h
        split at h
        · rename_i hm
          have := get?_mem_idxSteps xs 0 m.toNat c h
          simpa [Int.toNat_of_nonneg hm] using this
        · cases h
  | vnull => cases s <;> simp [applyPStep] at h
  | vbool b => cases s <;> simp [applyPStep] at h
  | vnum n => cases s <;> simp [applyPStep] at h
  | vstr s2 => cases s <;> simp [applyPStep] at h

theorem walk_sound :
    ∀ (N : Nat) (v : Value), sizeOf v ≤ N → ∀ (p : CtyPath) (w : Value) (q : CtyPath),
      wfVal v = true → (w, q) ∈ walkPre v p →
      ∃ q', q = p ++ q' ∧ applyPath v q' = some w := by
  intro N
  induction N with
  | zero =>
    intro v hv
    cases v <;> simp at hv
  | succ m ih =>
    intro v hv p w q hwf hmem
    rw [walkPre_eq] at hmem
    rcases List.mem_cons.mp hmem with heq | hflat
    · cases heq
      exact ⟨[], by simp, rfl⟩
    · obtain ⟨sc, hsc, hmem2⟩ := List.mem_flatMap.mp hflat
      have hsz : sizeOf sc.2 ≤ m := by
        have := childSteps_sizeOf sc hsc
        omega
      obtain ⟨q'', hq, happ⟩ :=
        ih sc.2 hsz (p ++ [sc.1]) w q (childSteps_wf hwf sc hsc) hmem2
      refine ⟨sc.1 :: q'', by simpa using hq, ?_⟩
      unfold applyPath
      rw [childSteps_apply hwf sc hsc]
      exact happ

theorem walk_complete :
    ∀ (q' : CtyPath) (v w : Value) (p : CtyPath), applyPath v q' = some w →
      (w, p ++ q') ∈ walkPre v p := by
  intro q'
  induction q' with
  | nil =>
    intro v w p h
    unfold applyPath at h
    cases h
    rw [walkPre_eq]
    simp
  | cons s rest ih =>
    intro v w p h
    cases hap : applyPStep v s with
    | none => unfold applyPath at h; rw [hap] at h; cases h
    | some c =>
      have h2 : applyPath c rest = some w := by
        unfold applyPath at h
        rw [hap] at h
        exact h
      have hin := ih c w (p ++ [s]) h2
      rw [walkPre_eq]
      refine List.mem_cons_of_mem _ (List.mem_flatMap.mpr ⟨(s, c), apply_childSteps v s c hap, ?_⟩)
      simpa using hin

/-- **C5**: `cty.Walk`-based recursive descent enumerates, for each
working-set pair `(v, p)`, the pair itself first, then the subtree of
each child in iterator order, depth-first (the `walkPre_eq` shape);
every enumerated pair is a descendant reachable by attribute/index
application from `v` (given `cty`'s no-duplicate-keys invariant), every
reachable descendant is enumerated, and `$..C` on the spec's nesting
sample returns every `C` at any depth in pre-order (`[1, 2]`). -/
theorem recursive_descent_preorder :
    (∀ (v : Value) (p : CtyPath),
      walkPre v p = (v, p) ::
        (childSteps v).flatMap (fun sc => walkPre sc.2 (p ++ [sc.1]))) ∧
    (∀ (v : Value) (p : CtyPath) (w : Value) (q : CtyPath), wfVal v = true →
      (w, q) ∈ walkPre v p → ∃ q', q = p ++ q' ∧ applyPath v q' = some w) ∧
    (∀ (q' : CtyPath) (v w : Value) (p : CtyPath), applyPath v q' = some w →
      (w, p ++ q') ∈ walkPre v p) ∧
    (∀ fuel, ∃ ps, EvaluateGo fuel "$..C" sampleRootDV =
      .ok (⟨[Value.vnum 1, Value.vnum 2], ps, false⟩, none)) :=
  ⟨walkPre_eq,
   fun v p w q hwf hmem => walk_sound (sizeOf v) v le_rfl p w q hwf hmem,
   walk_complete,
   fun _ => ⟨[[PStep.getAttr "A", PStep.index (Key.num 1), PStep.index (Key.str "C")],
              [PStep.getAttr "A", PStep.index (Key.num 7), PStep.index (Key.str "C")]], rfl⟩⟩

/-- Witness for C5's soundness direction at the nesting sample: the pair
`(1, .A.C)` reported by the walk is reachable from the root. -/
theorem recursive_descent_preorder_witness :
    ∃ q', ([PStep.getAttr "A", PStep.getAttr "C"] : CtyPath) = [] ++ q' ∧
      applyPath sampleRootDV q' = some (Value.vnum 1) :=
  recursive_descent_preorder.2.1 sampleRootDV [] (Value.vnum 1)
    [PStep.getAttr "A", PStep.getAttr "C"] (by decide) (by decide)

theorem makeStepVal_obj_str (fields : List (String × Value)) (s : String) :
    makeStepVal (Value.vobj fields) (Key.str s) =
      match lookupField fields s with
      | some w => .ok w
      | none => .error "step does not apply" := by
  cases h : lookupField fields s <;> simp [makeStepVal, makeStep, applyPStep, h]

theorem keyLoop_obj_spec (fields : List (String × Value)) (basePaths : List CtyPath)
    (i : Nat) (bp : CtyPath) (hbp : basePaths[i]? = some bp) :
    ∀ (keys : List Key) (res : List Value) (paths : List CtyPath) (flat : Bool),
      keyLoop (Value.vobj fields) basePaths i keys res paths flat =
        .ok (res ++ keys.filterMap (unionPick fields),
          paths ++ keys.filterMap (fun k =>
            (unionPick fields k).map fun _ => bp ++ makeStepList (Value.vobj fields) k),
          flat) := by
  intro keys
  induction keys with
  | nil => intro res paths flat; simp [keyLoop]
  | cons k ks ih =>
    intro res paths flat
    cases k with
    | str s =>
      cases hlk : lookupField fields s with
      | none =>
        simp [keyLoop, makeStepVal_obj_str, hlk, ih, List.filterMap_cons, unionPick]
      | some w =>
        simp [keyLoop, makeStepVal_obj_str, hlk, hbp, ih, List.filterMap_cons, unionPick]
    | num m =>
      have hmv : makeStepVal (Value.vobj fields) (Key.num m)
          = .error "object key must be a string" := by
        simp [makeStepVal, makeStep]
      simp [keyLoop, hmv, ih, List.filterMap_cons, unionPick]

theorem childLoop_spec (inputVal : Value) (basePaths : List CtyPath) (i : Nat)
    (key : Key) (bp : CtyPath) (hbp : basePaths[i]? = some bp) :
    ∀ (cs : List Value) (listI : Nat) (res : List Value) (paths : List CtyPath),
      ∃ ps, childLoop inputVal basePaths i key cs listI res paths =
        .ok (res ++ cs.filterMap (fun c => exceptToOption (makeStepVal c key)), ps) := by
  intro cs
  induction cs with
  | nil => intro listI res paths; exact ⟨paths, by simp [childLoop]⟩
  | cons c more ih =>
    intro listI res paths
    cases hmv : makeStepVal c key with
    | ok w =>
      obtain ⟨ps, hps⟩ := ih (listI + 1) (res ++ [w])
        (paths ++ [bp ++ [PStep.index (Key.num listI)] ++ makeStepList inputVal key])
      refine ⟨ps, ?_⟩
      have hstep : childLoop inputVal basePaths i key (c :: more) listI res paths
          = childLoop inputVal basePaths i key more (listI + 1) (res ++ [w])
              (paths ++ [bp ++ [PStep.index (Key.num listI)] ++ makeStepList inputVal key]) := by
        simp [childLoop, hmv, hbp]
      rw [hstep, hps]
      simp [List.filterMap_cons, hmv, exceptToOption]
    | error e =>
      obtain ⟨ps, hps⟩ := ih (listI + 1) res paths
      refine ⟨ps, ?_⟩
      have hstep : childLoop inputVal basePaths i key (c :: more) listI res paths
          = childLoop inputVal basePaths i key more (listI + 1) res paths := by
        simp [childLoop, hmv]
      rw [hstep, hps]
      simp [List.filterMap_cons, hmv, exceptToOption]

theorem keyLoop_tuple_spec (cands : List Value) (basePaths : List CtyPath) (i : Nat)
    (bp : CtyPath) (hbp : basePaths[i]? = some bp) :
    ∀ (keys : List Key), (∀ k ∈ keys, keyIsNum k = false) →
      ∀ (res : List Value) (paths : List CtyPath) (flat : Bool),
      ∃ ps f, keyLoop (Value.vtuple cands) basePaths i keys res paths flat =
        .ok (res ++ keys.flatMap (fun k => cands.filterMap
          (fun c => exceptToOption (makeStepVal c k))), ps, f) := by
  intro keys
  induction keys with
  | nil =>
    intro _ res paths flat
    exact ⟨paths, flat, by simp [keyLoop]⟩
  | cons k ks ih =>
    intro hkeys res paths flat
    have hk : keyIsNum k = false := hkeys k (List.mem_cons_self _ _)
    obtain ⟨ps1, hcl⟩ :=
      childLoop_spec (Value.vtuple cands) basePaths i k bp hbp cands 0 res paths
    obtain ⟨ps, f, hks⟩ := ih (fun k2 hk2 => hkeys k2 (List.mem_cons_of_mem _ hk2))
      (res ++ cands.filterMap (fun c => exceptToOption (makeStepVal c k))) ps1 false
    refine ⟨ps, f, ?_⟩
    have harm : keyLoop (Value.vtuple cands) basePaths i (k :: ks) res paths flat
        = (childLoop (Value.vtuple cands) basePaths i k cands 0 res paths).bind
            fun rp => keyLoop (Value.vtuple cands) basePaths i ks rp.1 rp.2 false := by
      simp [keyLoop, Value.isIndexed, hk]
    rw [harm, hcl]
    show keyLoop (Value.vtuple cands) basePaths i ks
      (res ++ cands.filterMap (fun c => exceptToOption (makeStepVal c k))) ps1 false = _
    rw [hks]
    simp [List.flatMap_cons, List.append_assoc]

/-- **C6**: a union evaluates its keys in the exact order listed
(duplicates preserved), each key contributing its matches before the next
key's — against a keyed root the result is the key-ordered sequence of
attribute hits, and against a fanned-out tuple of candidates the outer
loop is over union keys and the inner loop over the candidates; on
`{B: "value", C: 3.14}`, `['B','C']` yields `["value", 3.14]` and
`['C','B']` yields `[3.14, "value"]`. -/
theorem union_key_major_ordering
    (fields : List (String × Value)) (keys : List Key)
    (cands : List Value) (skeys : List Key) (fuel : Nat)
    (hs : ∀ k ∈ skeys, keyIsNum k = false) :
    (∃ ps, evaluateItems fuel [Item.union keys] (Value.vobj fields) =
      .ok ⟨keys.filterMap (unionPick fields), ps, false⟩) ∧
    (∃ ps f, evaluateItems fuel [Item.union skeys] (Value.vtuple cands) =
      .ok ⟨skeys.flatMap (fun k => cands.filterMap
        (fun c => exceptToOption (makeStepVal c k))), ps, f⟩) ∧
    evaluateItems fuel [Item.union [Key.str "B", Key.str "C"]] sampleRootBC =
      .ok ⟨[Value.vstr "value", Value.vnum (157 / 50)],
           [[PStep.getAttr "B"], [PStep.getAttr "C"]], false⟩ ∧
    evaluateItems fuel [Item.union [Key.str "C", Key.str "B"]] sampleRootBC =
      .ok ⟨[Value.vnum (157 / 50), Value.vstr "value"],
           [[PStep.getAttr "C"], [PStep.getAttr "B"]], false⟩ := by
  refine ⟨?_, ?_, rfl, rfl⟩
  · refine ⟨keys.filterMap (fun k =>
      (unionPick fields k).map fun _ =>
        ([] : CtyPath) ++ makeStepList (Value.vobj fields) k), ?_⟩
    have h1 : evaluateItems fuel [Item.union keys] (Value.vobj fields)
        = ((keyLoop (Value.vobj fields) [[]] 0 keys [] [] false).bind
            (fun rpf => GoOutcome.ok (⟨rpf.1, rpf.2.1, rpf.2.2⟩ : ValueContainer))).bind
            (fun V2 => GoOutcome.ok V2) := rfl
    rw [h1, keyLoop_obj_spec fields [[]] 0 [] rfl keys [] [] false]
    rfl
  · obtain ⟨ps, f, hk⟩ := keyLoop_tuple_spec cands [[]] 0 [] rfl skeys hs [] [] false
    refine ⟨ps, f, ?_⟩
    have h2 : evaluateItems fuel [Item.union skeys] (Value.vtuple cands)
        = ((keyLoop (Value.vtuple cands) [[]] 0 skeys [] [] false).bind
            (fun rpf => GoOutcome.ok (⟨rpf.1, rpf.2.1, rpf.2.2⟩ : ValueContainer))).bind
            (fun V2 => GoOutcome.ok V2) := rfl
    rw [h2, hk]
    rfl

/-- Witness for C6 at a one-field object and an empty fan-out. -/
theorem union_key_major_ordering_witness :
    (∃ ps, evaluateItems 1 [Item.union [Key.str "B"]]
        (Value.vobj [("B", Value.vstr "value")]) =
      .ok ⟨[Key.str "B"].filterMap (unionPick [("B", Value.vstr "value")]), ps, false⟩) ∧
    (∃ ps f, evaluateItems 1 [Item.union []] (Value.vtuple []) =
      .ok ⟨([] : List Key).flatMap (fun k => ([] : List Value).filterMap
        (fun c => exceptToOption (makeStepVal c k))), ps, f⟩) ∧
    evaluateItems 1 [Item.union [Key.str "B", Key.str "C"]] sampleRootBC =
      .ok ⟨[Value.vstr "value", Value.vnum (157 / 50)],
           [[PStep.getAttr "B"], [PStep.getAttr "C"]], false⟩ ∧
    evaluateItems 1 [Item.union [Key.str "C", Key.str "B"]] sampleRootBC =
      .ok ⟨[Value.vnum (157 / 50), Value.vstr "value"],
           [[PStep.getAttr "C"], [PStep.getAttr "B"]], false⟩ :=
  union_key_major_ordering [("B", Value.vstr "value")] [Key.str "B"] [] [] 1
    (by intro k hk; cases hk)

theorem filterInner_spec (pred : Value → Except String Value) :
    ∀ (xs : List Value) (L : List Value), (∀ e ∈ xs, ∃ v, pred e = .ok v) →
      filterInner pred xs L = .ok (L ++ xs.filter (predKeeps pred)) := by
  intro xs
  induction xs with
  | nil => intro L _; simp [filterInner]
  | cons x rest ih =>
    intro L h
    obtain ⟨v, hv⟩ := h x (List.mem_cons_self _ _)
    have hrest := fun e he => h e (List.mem_cons_of_mem _ he)
    cases v
    case vbool b =>
      cases b
      case true =>
        have hstep : filterInner pred (x :: rest) L = filterInner pred rest (L ++ [x]) := by
          simp [filterInner, hv, isNullV, isBoolType, valueTrue]
        have hpk : predKeeps pred x = true := by
          simp [predKeeps, hv, isNullV, isBoolType, valueTrue]
        rw [hstep, ih (L ++ [x]) hrest]
        simp [List.filter_cons, hpk]
      case false =>
        have hstep : filterInner pred (x :: rest) L = filterInner pred rest L := by
          simp [filterInner, hv, isNullV, isBoolType, valueTrue]
        have hpk : predKeeps pred x = false := by
          simp [predKeeps, hv, isNullV, isBoolType, valueTrue]
        rw [hstep, ih L hrest]
        simp [List.filter_cons, hpk]
    all_goals
      have hstep : filterInner pred (x :: rest) L = filterInner pred rest L := by
        simp [filterInner, hv, isNullV, isBoolType, valueTrue]
    all_goals
      have hpk : predKeeps pred x = false := by
        simp [predKeeps, hv, isNullV, isBoolType, valueTrue]
    all_goals rw [hstep, ih L hrest]
    all_goals simp [List.filter_cons, hpk]

/-- **C7**: the filter command keeps exactly the elements whose compiled
predicate returns the boolean `true` (predicate success assumed, as
`eval` errors abort instead), in their original relative order; a
non-boolean or null predicate result silently drops the element; the
kept elements are emitted as one new flat indexed container, or as the
empty working set when nothing survives. -/
theorem filter_keeps_exactly_true_elements
    (pred : Value → Except String Value) (elems : List Value)
    (hok : ∀ e ∈ elems, ∃ v, pred e = .ok v) :
    (∀ e : Value, predKeeps pred e = true ↔ pred e = .ok (Value.vbool true)) ∧
    filterCommand pred [Value.vtuple elems] =
      .ok (if elems.filter (predKeeps pred) = [] then []
        else [Value.vlist (elems.filter (predKeeps pred))]) := by
  constructor
  · intro e
    cases he : pred e with
    | error msg => simp [predKeeps, he]
    | ok v =>
      cases v <;> simp [predKeeps, he, isNullV, isBoolType, valueTrue]
  · have houter : filterOuter pred [Value.vtuple elems] []
        = .ok (elems.filter (predKeeps pred)) := by
      have h1 : filterOuter pred [Value.vtuple elems] []
          = match filterInner pred elems [] with
            | .error e => .error e
            | .ok L2 => filterOuter pred [] L2 := rfl
      rw [h1, filterInner_spec pred elems [] hok]
      simp [filterOuter]
    unfold filterCommand
    rw [houter]

/-- Witness for C7: `@.Brand == 'Honda'` on the three-car sample keeps
exactly the two Hondas, in order. -/
theorem filter_keeps_exactly_true_elements_witness :
    (∀ e : Value, predKeeps brandHondaPred e = true ↔
      brandHondaPred e = .ok (Value.vbool true)) ∧
    filterCommand brandHondaPred [Value.vtuple sampleCars] =
      .ok (if sampleCars.filter (predKeeps brandHondaPred) = [] then []
        else [Value.vlist (sampleCars.filter (predKeeps brandHondaPred))]) :=
  filter_keeps_exactly_true_elements brandHondaPred sampleCars
    (by
      intro e he
      simp [sampleCars, carValue] at he
      rcases he with rfl | rfl | rfl
      · exact ⟨_, rfl⟩
      · exact ⟨_, rfl⟩
      · exact ⟨_, rfl⟩)

end JsonPathCty
